import Mathlib

/-!
Verification of the dependency-resolver program (src/pr_2.py) against its
natural-language specification.  The Python functions are embedded as Lean
definitions over lists and strings:

* `build_dependency_graph` — the bounded, filtered BFS (source lines
  108-132).  The `while queue:` loop is embedded as the one-iteration step
  function `bfs_step` iterated by `runSteps`; the iteration count
  `queueWeight (rawDeps f sp sv) md [(sp, 0)]` is an upper bound on the
  number of iterations the loop can perform, and the theorem
  `runSteps_empties` proves the queue is empty by then (the loop has
  terminated), so the iterated step function computes exactly the loop's
  final state.
* `get_installation_order` — the recursive DFS post-order (lines 141-154),
  written with a structural fuel argument large enough to never run out.
* `generate_d2` — the D2 text renderer (lines 157-165).
* A metadata source (`get_dependencies_from_test_repo` /
  `get_dependencies_from_apkindex`) is an arbitrary function
  `String → String → Option (List String)`, with `none` playing the role
  of Python's `None` (NOT_FOUND).
-/

namespace Pr2

/-- Python's substring test `needle in hay` on strings: some tail of `hay`
starts with `needle`.  Note `"" in hay` is `True` in Python. -/
def containsSubstr (hay needle : String) : Bool :=
  hay.toList.tails.any (fun t => needle.toList.isPrefixOf t)

/-- Python `dict.get(k, [])` on an association list. -/
def dictGet (graph : List (String × List String)) (k : String) : List String :=
  ((graph.find? (fun p => p.1 == k)).map Prod.snd).getD []

/-- Python `dict[k] = v`: replace in place if the key exists, else append. -/
def dictSet (graph : List (String × List String)) (k : String) (v : List String) :
    List (String × List String) :=
  if graph.any (fun p => p.1 == k) then
    graph.map (fun p => if p.1 == k then (k, v) else p)
  else
    graph ++ [(k, v)]

/-- The inner `for dep in filtered_deps` loop of `build_dependency_graph`
(lines 127-130): enqueue each dependency not yet visited, marking it visited. -/
def enqueue_deps (deps : List String) (visited : List String)
    (queue : List (String × Nat)) (d : Nat) : List String × List (String × Nat) :=
  match deps with
  | [] => (visited, queue)
  | dep :: rest =>
    if dep ∈ visited then enqueue_deps rest visited queue d
    else enqueue_deps rest (dep :: visited) (queue ++ [(dep, d)]) d

/-- The mutable state of the BFS in `build_dependency_graph`. -/
structure BfsState where
  graph : List (String × List String)
  visited : List String
  queue : List (String × Nat)
deriving DecidableEq

/-- One iteration of the `while queue:` loop of `build_dependency_graph`
(lines 115-130).  On an empty queue the state is returned unchanged. -/
def bfs_step (f : String → String → Option (List String)) (sp sv : String)
    (md : Nat) (fs : String) (s : BfsState) : BfsState :=
  match s.queue with
  | [] => s
  | (current, depth) :: rest =>
    if md ≤ depth then ⟨s.graph, s.visited, rest⟩
    else
      let deps := (f current (if current = sp then sv else "1.0")).getD []
      let filtered_deps := deps.filter (fun d => !(containsSubstr d fs))
      let vq := enqueue_deps filtered_deps s.visited rest (depth + 1)
      ⟨dictSet s.graph current filtered_deps, vq.1, vq.2⟩

/-- The dependencies the source reports for a name, at the version the
resolver passes for that name (line 120), with NOT_FOUND read as `[]`. -/
def rawDeps (f : String → String → Option (List String)) (sp sv : String)
    (n : String) : List String :=
  (f n (if n = sp then sv else "1.0")).getD []

/-- The filtered dependency list stored for an expanded node (line 124). -/
def filteredDeps (f : String → String → Option (List String)) (sp sv fs : String)
    (n : String) : List String :=
  (rawDeps f sp sv n).filter (fun d => !(containsSubstr d fs))

/-- Bound on the number of loop iterations one queue entry can still cause,
where `b` is the remaining depth budget `md - depth` of the entry. -/
def weight (g : String → List String) : Nat → String → Nat
  | 0, _ => 1
  | b + 1, n => 1 + ((g n).map (fun m => weight g b m)).sum

/-- Bound on the number of remaining loop iterations: total weight of the
queue.  Every `bfs_step` on a non-empty queue strictly decreases it. -/
def queueWeight (g : String → List String) (md : Nat) (q : List (String × Nat)) : Nat :=
  (q.map (fun p => weight g (md - p.2) p.1)).sum

/-- Iterate `bfs_step` a fixed number of times. -/
def runSteps (f : String → String → Option (List String)) (sp sv : String)
    (md : Nat) (fs : String) : Nat → BfsState → BfsState
  | 0, s => s
  | n + 1, s => runSteps f sp sv md fs n (bfs_step f sp sv md fs s)

/-- `build_dependency_graph(start_package, start_version, get_deps_func,
max_depth, filter_substring)` from source lines 108-132: starting from
`graph = {}`, `visited = {start}`, `queue = [(start, 0)]`, run the loop to
completion (`queueWeight` many steps always empty the queue, see
`runSteps_empties`) and return the graph. -/
def build_dependency_graph (sp sv : String)
    (f : String → String → Option (List String)) (md : Nat) (fs : String) :
    List (String × List String) :=
  (runSteps f sp sv md fs (queueWeight (rawDeps f sp sv) md [(sp, 0)])
    ⟨[], [sp], [(sp, 0)]⟩).graph

/-- The mutable state of `get_installation_order`'s recursive `dfs`
(lines 142-143): the visited set and the accumulated install list. -/
structure DfsSt where
  visited : List String
  installed : List String
deriving DecidableEq

/-- The recursive `dfs` of `get_installation_order` (lines 145-151): mark the
node visited on entry, walk its stored dependencies in order, append the node
on exit.  `fuel` bounds the recursion depth; it is an embedding device only —
`get_installation_order` supplies more fuel than the recursion can consume. -/
def dfs (graph : List (String × List String)) : Nat → String → DfsSt → DfsSt
  | 0, _, st => st
  | fuel + 1, node, st =>
    if node ∈ st.visited then st
    else
      let st1 : DfsSt := ⟨node :: st.visited, st.installed⟩
      let st2 := (dictGet graph node).foldl (fun s d => dfs graph fuel d s) st1
      ⟨st2.visited, st2.installed ++ [node]⟩

/-- Every name mentioned by the graph, keys and dependency values alike. -/
def allNames (graph : List (String × List String)) : List String :=
  graph.foldr (fun p acc => p.1 :: p.2 ++ acc) []

/-- `get_installation_order(graph, start_package)` from source lines 141-154. -/
def get_installation_order (graph : List (String × List String))
    (start_package : String) : List String :=
  (dfs graph ((start_package :: allNames graph).length + 1) start_package
    ⟨[], []⟩).installed

/-- `"{pkg}"` — a quoted isolated-node line (line 161). -/
def quoteName (s : String) : String := "\"" ++ s ++ "\""

/-- `"{pkg}" -> "{dep}"` — a quoted edge line (line 164). -/
def edgeLine (a b : String) : String :=
  "\"" ++ a ++ "\" -> \"" ++ b ++ "\""

/-- `generate_d2(graph)` from source lines 157-165. -/
def generate_d2 (graph : List (String × List String)) : String :=
  String.intercalate "\n"
    (graph.foldl
      (fun lines p =>
        if p.2 = [] then lines ++ [quoteName p.1]
        else lines ++ p.2.map (fun dep => edgeLine p.1 dep))
      ["direction: right"])

/-- The renderer's line list exactly as the spec words it: first
`direction: right`, then, per graph entry in stored order, one line per
isolated node and one line per edge. -/
def d2_spec_lines (graph : List (String × List String)) : List String :=
  "direction: right" ::
    graph.flatMap (fun p =>
      if p.2 = [] then [quoteName p.1]
      else p.2.map (fun dep => edgeLine p.1 dep))

/-- The edge relation of a resolved graph: `b` is among the stored
dependencies of `a` (with Python-dict first-match lookup). -/
def stepRel (graph : List (String × List String)) (a b : String) : Prop :=
  b ∈ dictGet graph a

/-- `b` occurs strictly before (the first occurrence of) `a` in `l`. -/
def Before (l : List String) (b a : String) : Prop :=
  ∃ l₁ l₂, l = l₁ ++ a :: l₂ ∧ b ∈ l₁

/-- `x` has been visited by the DFS but not yet appended to the output:
exactly the nodes on the active recursion path. -/
def GrayIn (x : String) (s : DfsSt) : Prop :=
  x ∈ s.visited ∧ x ∉ s.installed

/-- How one DFS state evolves into another: visited grows, installed is
extended on the right with fresh, pairwise-distinct names, and the new
visited names are exactly the newly installed ones. -/
def DfsExt (s t : DfsSt) : Prop :=
  (∀ x, x ∈ s.visited → x ∈ t.visited) ∧
  ∃ ext, t.installed = s.installed ++ ext ∧ ext.Nodup ∧
    (∀ x, x ∈ ext → x ∉ s.visited) ∧
    (∀ x, x ∈ t.visited ↔ (x ∈ s.visited ∨ x ∈ ext))

/-- Sanity of a DFS state: the output so far has no duplicates and only
holds visited names. -/
def WFst (s : DfsSt) : Prop :=
  s.installed.Nodup ∧ ∀ x, x ∈ s.installed → x ∈ s.visited

/-- The ordering invariant of the installation output: for every graph edge
whose source has been emitted, the target was emitted earlier, or the target
reaches back to the source through graph edges (the edge closes a cycle). -/
def OrderInv (graph : List (String × List String)) (s : DfsSt) : Prop :=
  ∀ a b, stepRel graph a b → a ∈ s.installed →
    Before s.installed b a ∨ Relation.TransGen (stepRel graph) b a

/-- How many names of `univ` the DFS has not visited yet. -/
def unvisitedCount (univ : List String) (s : DfsSt) : Nat :=
  (univ.toFinset \ s.visited.toFinset).card

/-- A local test-repo source with a two-package cycle: `a` depends on `b`
and `b` depends on `a` (versions are ignored, as in the JSON catalog the
fixed fallback version matches). -/
def cycSrc (a b : String) : String → String → Option (List String) :=
  fun n _ => if n = a then some [b] else if n = b then some [a] else none

/-- A source reporting a single dependency `["a"]` for every package. -/
def srcSingleA : String → String → Option (List String) :=
  fun _ _ => some ["a"]

/-- A source reporting the duplicated list `["a", "a"]` for `"r"` and
NOT_FOUND for everything else. -/
def srcDupA : String → String → Option (List String) :=
  fun n _ => if n = "r" then some ["a", "a"] else none

/-- A source reporting `["ax", "b"]` for `"r"` and NOT_FOUND otherwise. -/
def srcAxB : String → String → Option (List String) :=
  fun n _ => if n = "r" then some ["ax", "b"] else none

/-- A source reporting an empty dependency list for every package. -/
def srcEmptyList : String → String → Option (List String) :=
  fun _ _ => some []

/-- A source reporting NOT_FOUND for every lookup. -/
def srcNone : String → String → Option (List String) :=
  fun _ _ => none

/-- A source that answers `some []` everywhere. -/
def c6f : String → String → Option (List String) :=
  fun _ _ => some []

/-- A source that agrees with `c6f` except at the version `"9.9"`, which the
resolver never asks for. -/
def c6g : String → String → Option (List String) :=
  fun _ v => if v = "9.9" then some ["X"] else some []

end Pr2

namespace Pr2

/-! ### Groundwork: the BFS terminates within `queueWeight` steps -/

theorem weight_pos (g : String → List String) (b : Nat) (n : String) :
    1 ≤ weight g b n := by
  cases b <;> simp [weight]

theorem queueWeight_append (g : String → List String) (md : Nat)
    (q₁ q₂ : List (String × Nat)) :
    queueWeight g md (q₁ ++ q₂) = queueWeight g md q₁ + queueWeight g md q₂ := by
  simp [queueWeight]

theorem enqueue_deps_weight (g : String → List String) (md : Nat) :
    ∀ (deps visited : List String) (queue : List (String × Nat)) (d : Nat),
    queueWeight g md (enqueue_deps deps visited queue d).2 ≤
      queueWeight g md queue + (deps.map (fun m => weight g (md - d) m)).sum := by
  intro deps
  induction deps with
  | nil => intro visited queue d; simp [enqueue_deps]
  | cons dep rest ih =>
    intro visited queue d
    simp only [enqueue_deps]
    by_cases h : dep ∈ visited
    · simp only [if_pos h, List.map_cons, List.sum_cons]
      calc queueWeight g md (enqueue_deps rest visited queue d).2 ≤
            queueWeight g md queue + (rest.map (fun m => weight g (md - d) m)).sum :=
              ih visited queue d
        _ ≤ _ := by omega
    · simp only [if_neg h, List.map_cons, List.sum_cons]
      calc queueWeight g md (enqueue_deps rest (dep :: visited) (queue ++ [(dep, d)]) d).2 ≤
            queueWeight g md (queue ++ [(dep, d)]) +
              (rest.map (fun m => weight g (md - d) m)).sum :=
              ih (dep :: visited) (queue ++ [(dep, d)]) d
        _ = queueWeight g md queue + (weight g (md - d) dep +
              (rest.map (fun m => weight g (md - d) m)).sum) := by
              rw [queueWeight_append]; simp [queueWeight]; omega
        _ ≤ _ := by omega

theorem sum_map_filter_le (l : List String) (p : String → Bool) (w : String → Nat) :
    ((l.filter p).map w).sum ≤ (l.map w).sum := by
  induction l with
  | nil => simp
  | cons a rest ih =>
    by_cases h : p a
    · simp [List.filter_cons, h]; omega
    · simp only [List.filter_cons, h, Bool.false_eq_true, if_false, List.map_cons,
        List.sum_cons]
      omega

theorem bfs_step_decreases (f : String → String → Option (List String))
    (sp sv : String) (md : Nat) (fs : String) (s : BfsState)
    (h : s.queue ≠ []) :
    queueWeight (rawDeps f sp sv) md (bfs_step f sp sv md fs s).queue <
      queueWeight (rawDeps f sp sv) md s.queue := by
  obtain ⟨g, v, q⟩ := s
  match q with
  | [] => exact absurd rfl h
  | (current, depth) :: rest =>
    simp only [bfs_step]
    by_cases hd : md ≤ depth
    · simp only [if_pos hd]
      have := weight_pos (rawDeps f sp sv) (md - depth) current
      simp [queueWeight]
      omega
    · simp only [if_neg hd]
      have hb : md - depth = (md - (depth + 1)) + 1 := by omega
      have h1 := enqueue_deps_weight (rawDeps f sp sv) md
        (((f current (if current = sp then sv else "1.0")).getD []).filter
          (fun d => !(containsSubstr d fs))) v rest (depth + 1)
      have h2 := sum_map_filter_le ((f current (if current = sp then sv else "1.0")).getD [])
        (fun d => !(containsSubstr d fs))
        (fun m => weight (rawDeps f sp sv) (md - (depth + 1)) m)
      have h3 : weight (rawDeps f sp sv) (md - depth) current =
          1 + (((f current (if current = sp then sv else "1.0")).getD []).map
            (fun m => weight (rawDeps f sp sv) (md - (depth + 1)) m)).sum := by
        rw [hb]
        simp [weight, rawDeps]
      simp only [queueWeight, List.map_cons, List.sum_cons] at h1 h2 ⊢
      omega

theorem bfs_step_of_empty (f : String → String → Option (List String)) (sp sv : String)
    (md : Nat) (fs : String) (s : BfsState) (h : s.queue = []) :
    bfs_step f sp sv md fs s = s := by
  obtain ⟨g, v, q⟩ := s
  simp only at h
  subst h
  rfl

/-- Enough iterations to cover the whole termination measure empty the queue. -/
theorem runSteps_empties (f : String → String → Option (List String))
    (sp sv : String) (md : Nat) (fs : String) :
    ∀ (n : Nat) (s : BfsState), queueWeight (rawDeps f sp sv) md s.queue ≤ n →
    (runSteps f sp sv md fs n s).queue = [] := by
  intro n
  induction n with
  | zero =>
    intro s hs
    match hq : s.queue with
    | [] => simp [runSteps, hq]
    | (c, d) :: rest =>
      exfalso
      have := weight_pos (rawDeps f sp sv) (md - d) c
      rw [hq] at hs
      simp [queueWeight] at hs
      omega
  | succ n ih =>
    intro s hs
    by_cases hq : s.queue = []
    · rw [runSteps, bfs_step_of_empty f sp sv md fs s hq]
      have h0 : queueWeight (rawDeps f sp sv) md s.queue = 0 := by
        rw [hq]; simp [queueWeight]
      exact ih s (by omega)
    · rw [runSteps]
      have := bfs_step_decreases f sp sv md fs s hq
      exact ih _ (by omega)

theorem runSteps_add (f : String → String → Option (List String)) (sp sv : String)
    (md : Nat) (fs : String) :
    ∀ (a b : Nat) (s : BfsState),
    runSteps f sp sv md fs (a + b) s =
      runSteps f sp sv md fs a (runSteps f sp sv md fs b s) := by
  intro a b
  induction b generalizing a with
  | zero => intro s; rfl
  | succ b ih =>
    intro s
    have : a + (b + 1) = (a + b) + 1 := by omega
    rw [this, runSteps, runSteps, ih]

theorem runSteps_of_empty (f : String → String → Option (List String)) (sp sv : String)
    (md : Nat) (fs : String) :
    ∀ (k : Nat) (s : BfsState), s.queue = [] → runSteps f sp sv md fs k s = s := by
  intro k
  induction k with
  | zero => intro s _; rfl
  | succ k ih =>
    intro s hs
    rw [runSteps, bfs_step_of_empty f sp sv md fs s hs]
    exact ih s hs

/-- Once the queue is empty, further iterations change nothing: the loop has
terminated. -/
theorem runSteps_stable (f : String → String → Option (List String)) (sp sv : String)
    (md : Nat) (fs : String) (n m : Nat) (s : BfsState)
    (hn : (runSteps f sp sv md fs n s).queue = []) (hnm : n ≤ m) :
    runSteps f sp sv md fs m s = runSteps f sp sv md fs n s := by
  obtain ⟨k, rfl⟩ : ∃ k, m = k + n := ⟨m - n, by omega⟩
  rw [runSteps_add]
  exact runSteps_of_empty f sp sv md fs k _ hn

/-! ### Groundwork: what the BFS stores in the graph -/

theorem dictSet_mem {graph : List (String × List String)} {k k' : String}
    {v l' : List String} (h : (k', l') ∈ dictSet graph k v) :
    (k', l') ∈ graph ∨ (k' = k ∧ l' = v) := by
  unfold dictSet at h
  by_cases ha : graph.any (fun p => p.1 == k)
  · rw [if_pos ha] at h
    obtain ⟨p, hp, hpe⟩ := List.mem_map.1 h
    by_cases hpk : p.1 == k
    · rw [if_pos hpk] at hpe
      right
      exact ⟨(Prod.mk.injEq _ _ _ _ ▸ hpe.symm).1.symm ▸ rfl, by
        cases hpe; rfl⟩
    · rw [if_neg hpk] at hpe
      exact Or.inl (hpe ▸ hp)
  · rw [if_neg ha] at h
    rcases List.mem_append.1 h with h1 | h2
    · exact Or.inl h1
    · rw [List.mem_singleton] at h2
      right
      cases h2
      exact ⟨rfl, rfl⟩

/-- Invariant of the BFS step: every value stored in the graph is the
substring-filtered lookup result of its key. -/
theorem runSteps_graph_values (f : String → String → Option (List String))
    (sp sv : String) (md : Nat) (fs : String) :
    ∀ (n : Nat) (s : BfsState),
    (∀ k l, (k, l) ∈ s.graph → l = filteredDeps f sp sv fs k) →
    ∀ k l, (k, l) ∈ (runSteps f sp sv md fs n s).graph →
      l = filteredDeps f sp sv fs k := by
  intro n
  induction n with
  | zero => intro s hs; exact hs
  | succ n ih =>
    intro s hs
    rw [runSteps]
    apply ih
    obtain ⟨g, v, q⟩ := s
    match q with
    | [] => exact hs
    | (current, depth) :: rest =>
      simp only [bfs_step]
      by_cases hd : md ≤ depth
      · rw [if_pos hd]
        exact hs
      · rw [if_neg hd]
        intro k l hkl
        rcases dictSet_mem hkl with h1 | ⟨rfl, rfl⟩
        · exact hs k l h1
        · rfl

/-- Every value stored by `build_dependency_graph` is the filtered lookup
result of its key. -/
theorem graph_values (sp sv : String)
    (f : String → String → Option (List String)) (md : Nat) (fs : String)
    (k : String) (l : List String)
    (h : (k, l) ∈ build_dependency_graph sp sv f md fs) :
    l = filteredDeps f sp sv fs k := by
  exact runSteps_graph_values f sp sv md fs _ _ (by simp) k l h

/-- The empty needle is a substring of every string, as in Python. -/
theorem containsSubstr_empty (s : String) : containsSubstr s "" = true := by
  unfold containsSubstr
  cases s.toList with
  | nil => rfl
  | cons a t => rfl

/-! ### Groundwork: how one DFS call extends the state -/

theorem dfsExt_refl (s : DfsSt) : DfsExt s s := by
  refine ⟨fun x hx => hx, [], by simp, List.nodup_nil, by simp, by simp⟩

theorem dfsExt_trans {s t u : DfsSt} (h1 : DfsExt s t) (h2 : DfsExt t u) :
    DfsExt s u := by
  obtain ⟨hv1, e1, hi1, hn1, hf1, hw1⟩ := h1
  obtain ⟨hv2, e2, hi2, hn2, hf2, hw2⟩ := h2
  refine ⟨fun x hx => hv2 x (hv1 x hx), e1 ++ e2, by rw [hi2, hi1, List.append_assoc], ?_, ?_, ?_⟩
  · rw [List.nodup_append]
    refine ⟨hn1, hn2, fun x hx1 hx2 => ?_⟩
    exact hf2 x hx2 ((hw1 x).2 (Or.inr hx1))
  · intro x hx
    rcases List.mem_append.1 hx with hx1 | hx2
    · exact hf1 x hx1
    · intro hxs
      exact hf2 x hx2 (hv1 x hxs)
  · intro x
    rw [hw2 x, hw1 x, List.mem_append]
    tauto

theorem dfsExt_installed_mono {s t : DfsSt} (h : DfsExt s t) :
    ∀ x, x ∈ s.installed → x ∈ t.installed := by
  obtain ⟨-, e, hi, -, -, -⟩ := h
  intro x hx
  rw [hi]
  exact List.mem_append.2 (Or.inl hx)

theorem dfsExt_gray {s t : DfsSt} (h : DfsExt s t) :
    ∀ x, GrayIn x t ↔ GrayIn x s := by
  obtain ⟨hv, e, hi, hn, hf, hw⟩ := h
  intro x
  constructor
  · rintro ⟨hxv, hxi⟩
    rcases (hw x).1 hxv with hs | he
    · refine ⟨hs, fun hxin => hxi ?_⟩
      rw [hi]
      exact List.mem_append.2 (Or.inl hxin)
    · exfalso
      exact hxi (by rw [hi]; exact List.mem_append.2 (Or.inr he))
  · rintro ⟨hxv, hxi⟩
    refine ⟨hv x hxv, fun hxin => ?_⟩
    rw [hi] at hxin
    rcases List.mem_append.1 hxin with h1 | h2
    · exact hxi h1
    · exact hf x h2 hxv

theorem foldl_dfsExt {α : Type} (F : DfsSt → α → DfsSt)
    (hF : ∀ s d, DfsExt s (F s d)) :
    ∀ (l : List α) (s : DfsSt), DfsExt s (l.foldl F s) := by
  intro l
  induction l with
  | nil => intro s; exact dfsExt_refl s
  | cons a rest ih =>
    intro s
    exact dfsExt_trans (hF s a) (ih (F s a))

/-- Every `dfs` call extends the state in the `DfsExt` sense. -/
theorem dfs_ext (graph : List (String × List String)) :
    ∀ (fuel : Nat) (node : String) (st : DfsSt),
    DfsExt st (dfs graph fuel node st) := by
  intro fuel
  induction fuel with
  | zero => intro node st; exact dfsExt_refl st
  | succ fuel ih =>
    intro node st
    rw [dfs]
    by_cases h : node ∈ st.visited
    · rw [if_pos h]; exact dfsExt_refl st
    · rw [if_neg h]
      have hfold := foldl_dfsExt (fun s d => dfs graph fuel d s)
        (fun s d => ih d s) (dictGet graph node) ⟨node :: st.visited, st.installed⟩
      set st1 : DfsSt := ⟨node :: st.visited, st.installed⟩ with hst1
      set st2 := (dictGet graph node).foldl (fun s d => dfs graph fuel d s) st1 with hst2
      obtain ⟨hv, e, hi, hn, hf, hw⟩ := hfold
      refine ⟨?_, e ++ [node], ?_, ?_, ?_, ?_⟩
      · intro x hx
        exact hv x (by simp [hst1]; exact Or.inr hx)
      · show st2.installed ++ [node] = st.installed ++ (e ++ [node])
        rw [hi, hst1, List.append_assoc]
      · rw [List.nodup_append]
        refine ⟨hn, List.nodup_singleton node, fun x hx1 hx2 => ?_⟩
        rw [List.mem_singleton] at hx2
        subst hx2
        exact hf x hx1 (by simp [hst1])
      · intro x hx
        rcases List.mem_append.1 hx with hx1 | hx2
        · intro hxs
          exact hf x hx1 (by simp [hst1]; exact Or.inr hxs)
        · rw [List.mem_singleton] at hx2
          subst hx2
          exact h
      · intro x
        show x ∈ st2.visited ↔ _
        rw [hw x]
        simp only [hst1, List.mem_cons, List.mem_append, List.mem_singleton]
        tauto

/-! ### Groundwork: the DFS post-order law -/

theorem unvisited_mono (univ : List String) {s t : DfsSt}
    (h : ∀ x, x ∈ s.visited → x ∈ t.visited) :
    unvisitedCount univ t ≤ unvisitedCount univ s := by
  apply Finset.card_le_card
  intro x hx
  rw [Finset.mem_sdiff, List.mem_toFinset] at hx ⊢
  exact ⟨hx.1, fun hv => hx.2 (List.mem_toFinset.2 (h x (List.mem_toFinset.1 hv)))⟩

theorem unvisited_strict (univ : List String) (s : DfsSt) (node : String)
    (hu : node ∈ univ) (hv : node ∉ s.visited) :
    unvisitedCount univ ⟨node :: s.visited, s.installed⟩ < unvisitedCount univ s := by
  apply Finset.card_lt_card
  constructor
  · intro x hx
    rw [Finset.mem_sdiff, List.mem_toFinset, List.toFinset_cons, Finset.mem_insert] at hx
    rw [Finset.mem_sdiff, List.mem_toFinset, List.mem_toFinset]
    exact ⟨hx.1, fun hvx => hx.2 (Or.inr (List.mem_toFinset.2 hvx))⟩
  · intro hsub
    have h1 : node ∈ univ.toFinset \ s.visited.toFinset := by
      rw [Finset.mem_sdiff, List.mem_toFinset, List.mem_toFinset]
      exact ⟨hu, hv⟩
    have h2 := hsub h1
    rw [Finset.mem_sdiff, List.toFinset_cons, Finset.mem_insert] at h2
    exact h2.2 (Or.inl rfl)

theorem before_append (l l' : List String) (b a : String) (h : Before l b a) :
    Before (l ++ l') b a := by
  obtain ⟨l₁, l₂, he, hb⟩ := h
  exact ⟨l₁, l₂ ++ l', by rw [he]; simp, hb⟩

/-- The inner `for dep in graph.get(node, [])` loop, folded with the
induction hypothesis for smaller fuel: the state stays well-formed, the
ordering invariant is preserved, and each dependency examined is afterwards
either already emitted or was gray (on the active path) to begin with. -/
theorem dfs_fold_main (graph : List (String × List String)) (univ : List String)
    (fuel : Nat)
    (IH : ∀ (node : String) (st : DfsSt), node ∈ univ →
      unvisitedCount univ st < fuel → WFst st → OrderInv graph st →
      (∀ g, GrayIn g st → Relation.ReflTransGen (stepRel graph) g node) →
      WFst (dfs graph fuel node st) ∧ OrderInv graph (dfs graph fuel node st) ∧
        (node ∈ (dfs graph fuel node st).installed ∨ GrayIn node st)) :
    ∀ (ds : List String) (s : DfsSt),
    (∀ d, d ∈ ds → d ∈ univ) →
    (∀ d, d ∈ ds → ∀ g, GrayIn g s → Relation.ReflTransGen (stepRel graph) g d) →
    unvisitedCount univ s < fuel →
    WFst s → OrderInv graph s →
    WFst (ds.foldl (fun t d => dfs graph fuel d t) s) ∧
    OrderInv graph (ds.foldl (fun t d => dfs graph fuel d t) s) ∧
    (∀ d, d ∈ ds →
      d ∈ (ds.foldl (fun t d => dfs graph fuel d t) s).installed ∨ GrayIn d s) := by
  intro ds
  induction ds with
  | nil =>
    intro s _ _ _ hwf hinv
    exact ⟨hwf, hinv, by simp⟩
  | cons d rest ih2 =>
    intro s hU hG hfu hwf hinv
    have hd := IH d s (hU d (List.mem_cons_self d rest)) hfu hwf hinv
      (fun g hg => hG d (List.mem_cons_self d rest) g hg)
    have hext : DfsExt s (dfs graph fuel d s) := dfs_ext graph fuel d s
    have hfu1 : unvisitedCount univ (dfs graph fuel d s) < fuel :=
      lt_of_le_of_lt (unvisited_mono univ hext.1) hfu
    have hrest := ih2 (dfs graph fuel d s)
      (fun x hx => hU x (List.mem_cons_of_mem d hx))
      (fun x hx g hg => hG x (List.mem_cons_of_mem d hx) g ((dfsExt_gray hext g).1 hg))
      hfu1 hd.1 hd.2.1
    rw [List.foldl_cons]
    have hextRest : DfsExt (dfs graph fuel d s)
        (rest.foldl (fun t x => dfs graph fuel x t) (dfs graph fuel d s)) :=
      foldl_dfsExt (fun t x => dfs graph fuel x t)
        (fun t x => dfs_ext graph fuel x t) rest (dfs graph fuel d s)
    refine ⟨hrest.1, hrest.2.1, ?_⟩
    intro x hx
    rcases List.mem_cons.1 hx with rfl | hx2
    · rcases hd.2.2 with hin | hgray
      · exact Or.inl (dfsExt_installed_mono hextRest x hin)
      · exact Or.inr hgray
    · rcases hrest.2.2 x hx2 with hin | hgray
      · exact Or.inl hin
      · exact Or.inr ((dfsExt_gray hext x).1 hgray)

/-- Main DFS lemma: with enough fuel, a call on a node whose gray
predecessors all reach it keeps the state well-formed, preserves the
ordering invariant, and ends with the node emitted (unless it was gray). -/
theorem dfs_main (graph : List (String × List String)) (univ : List String)
    (Hsub : ∀ a d, stepRel graph a d → d ∈ univ) :
    ∀ (fuel : Nat) (node : String) (st : DfsSt), node ∈ univ →
    unvisitedCount univ st < fuel → WFst st → OrderInv graph st →
    (∀ g, GrayIn g st → Relation.ReflTransGen (stepRel graph) g node) →
    WFst (dfs graph fuel node st) ∧ OrderInv graph (dfs graph fuel node st) ∧
      (node ∈ (dfs graph fuel node st).installed ∨ GrayIn node st) := by
  intro fuel
  induction fuel with
  | zero =>
    intro node st _ hfu
    exact absurd hfu (Nat.not_lt_zero _)
  | succ fuel ih =>
    intro node st hnode hfu hwf hinv hgray
    rw [dfs]
    by_cases h : node ∈ st.visited
    · rw [if_pos h]
      refine ⟨hwf, hinv, ?_⟩
      by_cases hi : node ∈ st.installed
      · exact Or.inl hi
      · exact Or.inr ⟨h, hi⟩
    · rw [if_neg h]
      set st1 : DfsSt := ⟨node :: st.visited, st.installed⟩ with hst1
      have hds_univ : ∀ d, d ∈ dictGet graph node → d ∈ univ :=
        fun d hd => Hsub node d hd
      have hnode_not_inst : node ∉ st.installed := fun hni => h (hwf.2 node hni)
      have hfu1 : unvisitedCount univ st1 < fuel := by
        have hlt := unvisited_strict univ st node hnode h
        rw [← hst1] at hlt
        omega
      have hwf1 : WFst st1 := ⟨hwf.1, fun x hx => List.mem_cons_of_mem node (hwf.2 x hx)⟩
      have hinv1 : OrderInv graph st1 := hinv
      have hgray1 : ∀ d, d ∈ dictGet graph node → ∀ g, GrayIn g st1 →
          Relation.ReflTransGen (stepRel graph) g d := by
        intro d hd g hg
        obtain ⟨hgv, hgi⟩ := hg
        rcases List.mem_cons.1 hgv with rfl | hgv2
        · exact Relation.ReflTransGen.single hd
        · exact (hgray g ⟨hgv2, hgi⟩).tail hd
      have hfold := dfs_fold_main graph univ fuel ih (dictGet graph node) st1
        hds_univ hgray1 hfu1 hwf1 hinv1
      set st2 := (dictGet graph node).foldl (fun s d => dfs graph fuel d s) st1 with hst2
      have hext12 : DfsExt st1 st2 :=
        foldl_dfsExt (fun s d => dfs graph fuel d s)
          (fun s d => dfs_ext graph fuel d s) (dictGet graph node) st1
      have hnode_not2 : node ∉ st2.installed := by
        obtain ⟨hv, e, hi2, hn, hf, hw⟩ := hext12
        rw [hi2]
        intro hmem
        rcases List.mem_append.1 hmem with h1 | h2
        · exact hnode_not_inst h1
        · exact hf node h2 (by simp [hst1])
      refine ⟨⟨?_, ?_⟩, ?_, Or.inl (by simp)⟩
      · show (st2.installed ++ [node]).Nodup
        rw [List.nodup_append]
        exact ⟨hfold.1.1, List.nodup_singleton node,
          fun x hx1 hx2 => by
            rw [List.mem_singleton] at hx2
            subst hx2
            exact hnode_not2 hx1⟩
      · show ∀ x, x ∈ st2.installed ++ [node] → x ∈ st2.visited
        intro x hx
        rcases List.mem_append.1 hx with h1 | h2
        · exact hfold.1.2 x h1
        · rw [List.mem_singleton] at h2
          subst h2
          exact hext12.1 x (by simp [hst1])
      · show OrderInv graph ⟨st2.visited, st2.installed ++ [node]⟩
        intro a b hab hain
        rcases List.mem_append.1 hain with ha1 | ha2
        · rcases hfold.2.1 a b hab ha1 with hbef | htg
          · exact Or.inl (before_append st2.installed [node] b a hbef)
          · exact Or.inr htg
        · rw [List.mem_singleton] at ha2
          subst ha2
          rcases hfold.2.2 b hab with hbin | hbgray
          · exact Or.inl ⟨st2.installed, [], rfl, hbin⟩
          · obtain ⟨hbv, hbi⟩ := hbgray
            rcases List.mem_cons.1 hbv with rfl | hbv2
            · exact Or.inr (Relation.TransGen.single hab)
            · have hne : b ≠ a := fun he => h (he ▸ hbv2)
              have hrtg := hgray b ⟨hbv2, hbi⟩
              rcases Relation.ReflTransGen.cases_head hrtg with he | ⟨c, hbc, hcn⟩
              · exact absurd he hne
              · exact Or.inr (Relation.TransGen.head' hbc hcn)

theorem before_indexOf {l : List String} {b a : String} (hnd : l.Nodup)
    (h : Before l b a) : l.indexOf b < l.indexOf a := by
  obtain ⟨l₁, l₂, rfl, hb⟩ := h
  have hna : a ∉ l₁ := by
    rw [List.nodup_append] at hnd
    intro hmem
    exact hnd.2.2 hmem (List.mem_cons_self a l₂)
  rw [List.indexOf_append_of_mem hb, List.indexOf_append_of_not_mem hna,
    List.indexOf_cons_self]
  have := List.indexOf_lt_length.2 hb
  omega

theorem mem_allNames_of_mem_entry :
    ∀ (graph : List (String × List String)) (p : String × List String),
    p ∈ graph → ∀ d, d ∈ p.2 → d ∈ allNames graph := by
  intro graph
  induction graph with
  | nil => intro p hp; exact absurd hp (List.not_mem_nil p)
  | cons q rest ih =>
    intro p hp d hd
    rcases List.mem_cons.1 hp with rfl | hp2
    · simp only [allNames, List.foldr_cons]
      exact List.mem_cons_of_mem _ (List.mem_append.2 (Or.inl hd))
    · simp only [allNames, List.foldr_cons]
      exact List.mem_cons_of_mem _ (List.mem_append.2 (Or.inr (ih p hp2 d hd)))

theorem stepRel_mem_allNames (graph : List (String × List String)) (a d : String)
    (h : stepRel graph a d) : d ∈ allNames graph := by
  unfold stepRel dictGet at h
  cases hf : graph.find? (fun p => p.1 == a) with
  | none => rw [hf] at h; exact absurd h (List.not_mem_nil d)
  | some p =>
    rw [hf] at h
    exact mem_allNames_of_mem_entry graph p (List.mem_of_find?_eq_some hf) d h

/-- Shape of a top-level `dfs` call on a fresh state: the output is some
fresh prefix followed by the start node itself. -/
theorem dfs_top_shape (graph : List (String × List String)) (fuel : Nat)
    (start : String) :
    ∃ e : List String,
      (dfs graph (fuel + 1) start ⟨[], []⟩).installed = e ++ [start] ∧
      start ∉ e := by
  rw [dfs, if_neg (by simp : start ∉ (⟨[], []⟩ : DfsSt).visited)]
  have hext := foldl_dfsExt (fun s d => dfs graph fuel d s)
    (fun s d => dfs_ext graph fuel d s) (dictGet graph start)
    ⟨start :: (⟨[], []⟩ : DfsSt).visited, (⟨[], []⟩ : DfsSt).installed⟩
  obtain ⟨hv, e, hi, hn, hf, hw⟩ := hext
  refine ⟨e, ?_, ?_⟩
  · show _ ++ [start] = e ++ [start]
    rw [hi]
    simp
  · exact fun hmem => hf start hmem (by simp)

/-! ### The claims -/

/-- Claim C1 (corrected): every dependency name stored in any graph produced
by the Resolver does not contain `excludeSubstring` — and when
`excludeSubstring` is the empty string, every name is dropped (the empty
string is a substring of every name, exactly as Python's `in` behaves), so
every stored dependency list is empty. -/
theorem c1_substring_filter :
    ∀ (sp sv : String) (f : String → String → Option (List String)) (md : Nat)
      (fs : String),
    (∀ k l, (k, l) ∈ build_dependency_graph sp sv f md fs →
      ∀ d, d ∈ l → containsSubstr d fs = false) ∧
    (fs = "" → ∀ k l, (k, l) ∈ build_dependency_graph sp sv f md fs → l = []) := by
  intro sp sv f md fs
  constructor
  · intro k l hmem d hd
    have hval := graph_values sp sv f md fs k l hmem
    subst hval
    have := (List.mem_filter.1 hd).2
    rwa [Bool.not_eq_true'] at this
  · rintro rfl k l hmem
    have hval := graph_values sp sv f md "" k l hmem
    subst hval
    unfold filteredDeps
    rw [List.filter_eq_nil_iff]
    intro d _
    simp [containsSubstr_empty d]

/-- Witness for C1 at a concrete run: the source reports `["ax", "b"]` for
the root, the filter is `"a"`, and the stored dependency `"b"` indeed does
not contain `"a"`. -/
theorem c1_substring_filter_witness :
    ("r", ["b"]) ∈ build_dependency_graph "r" "v" srcAxB 1 "a" ∧
    containsSubstr "b" "a" = false :=
  ⟨by decide,
   (c1_substring_filter "r" "v" srcAxB 1 "a").1 "r" ["b"] (by decide) "b" (by decide)⟩

/-- Counterexample to C1 as stated: with the empty exclude-substring the
claim says nothing is dropped, so the graph should store `("r", ["a"])`;
the code drops everything and stores `("r", [])`. -/
theorem c1_counterexample :
    build_dependency_graph "r" "v" srcSingleA 1 "" = [("r", [])] ∧
    ("r", ["a"]) ∉ build_dependency_graph "r" "v" srcSingleA 1 "" := by
  constructor
  · decide
  · decide

/-- Claim C2 (corrected): with `maxDepth = 0` the produced graph is empty —
the root is dequeued at depth `0 ≥ maxDepth` and skipped without being
recorded, so there is no key at all (not `{root: []}` as the spec states). -/
theorem c2_depth_zero :
    ∀ (sp sv : String) (f : String → String → Option (List String)) (fs : String),
    build_dependency_graph sp sv f 0 fs = [] := by
  intro sp sv f fs
  show (runSteps f sp sv 0 fs (queueWeight (rawDeps f sp sv) 0 [(sp, 0)])
    ⟨[], [sp], [(sp, 0)]⟩).graph = []
  have hN : queueWeight (rawDeps f sp sv) 0 [(sp, 0)] = 0 + 1 := by
    simp [queueWeight, weight]
  rw [hN, runSteps, runSteps]
  rfl

/-- Counterexample to C2 as stated: at `maxDepth = 0` the code returns the
empty graph, not the claimed single-key graph `{root: []}`. -/
theorem c2_counterexample :
    build_dependency_graph "r" "v" srcEmptyList 0 "x" = [] ∧
    ¬ build_dependency_graph "r" "v" srcEmptyList 0 "x" = [("r", [])] := by
  constructor
  · decide
  · decide

/-- Claim C3 (corrected): the stored dependency sequence of a key is exactly
the source's reported list after substring filtering — duplicates in the
source's list are preserved verbatim, not removed (only enqueueing is
deduplicated via the visited set). -/
theorem c3_stored_list :
    ∀ (sp sv : String) (f : String → String → Option (List String)) (md : Nat)
      (fs : String) (k : String) (l : List String),
    (k, l) ∈ build_dependency_graph sp sv f md fs →
    l = (rawDeps f sp sv k).filter (fun d => !(containsSubstr d fs)) := by
  intro sp sv f md fs k l h
  exact graph_values sp sv f md fs k l h

/-- Witness for C3 at a concrete run with a duplicated source list. -/
theorem c3_stored_list_witness :
    ("r", ["a", "a"]) ∈ build_dependency_graph "r" "v" srcDupA 1 "z" ∧
    ["a", "a"] = (rawDeps srcDupA "r" "v" "r").filter
      (fun d => !(containsSubstr d "z")) :=
  ⟨by decide, c3_stored_list "r" "v" srcDupA 1 "z" "r" ["a", "a"] (by decide)⟩

/-- Counterexample to C3 as stated: when the source reports `["a", "a"]`,
the stored dependency list for the key `"r"` contains a duplicate. -/
theorem c3_counterexample :
    ("r", ["a", "a"]) ∈ build_dependency_graph "r" "v" srcDupA 1 "z" ∧
    ¬ (["a", "a"] : List String).Nodup := by
  constructor
  · decide
  · decide

/-- Claim C6 (confirmed): the resolver consults the source only at
`versionFor(name)` — the configured root version for the root name, the
fixed fallback `"1.0"` for every other name: two sources that agree on
those lookups produce identical graphs. -/
theorem c6_version_selection :
    ∀ (sp sv : String) (f g : String → String → Option (List String)) (md : Nat)
      (fs : String),
    (∀ n, f n (if n = sp then sv else "1.0") = g n (if n = sp then sv else "1.0")) →
    build_dependency_graph sp sv f md fs = build_dependency_graph sp sv g md fs := by
  intro sp sv f g md fs h
  have hraw : rawDeps f sp sv = rawDeps g sp sv := by
    funext n
    unfold rawDeps
    rw [h n]
  have hstep : ∀ s, bfs_step f sp sv md fs s = bfs_step g sp sv md fs s := by
    intro s
    obtain ⟨gr, v, q⟩ := s
    match q with
    | [] => rfl
    | (current, depth) :: rest =>
      simp only [bfs_step]
      rw [h current]
  have hrun : ∀ n s, runSteps f sp sv md fs n s = runSteps g sp sv md fs n s := by
    intro n
    induction n with
    | zero => intro s; rfl
    | succ n ih => intro s; rw [runSteps, runSteps, hstep, ih]
  show (runSteps f sp sv md fs (queueWeight (rawDeps f sp sv) md [(sp, 0)])
      ⟨[], [sp], [(sp, 0)]⟩).graph =
    (runSteps g sp sv md fs (queueWeight (rawDeps g sp sv) md [(sp, 0)])
      ⟨[], [sp], [(sp, 0)]⟩).graph
  rw [hraw, hrun]

/-- Witness for C6: `c6g` differs from `c6f` only at version `"9.9"`, which
`versionFor` never produces, so the graphs coincide. -/
theorem c6_version_selection_witness :
    (∀ n, c6f n (if n = "r" then "2.0" else "1.0") =
      c6g n (if n = "r" then "2.0" else "1.0")) ∧
    build_dependency_graph "r" "2.0" c6f 1 "x" =
      build_dependency_graph "r" "2.0" c6g 1 "x" :=
  have hyp : ∀ n, c6f n (if n = "r" then "2.0" else "1.0") =
      c6g n (if n = "r" then "2.0" else "1.0") := by
    intro n
    by_cases h : n = "r"
    · rw [if_pos h]
      unfold c6f c6g
      rw [if_neg (by decide : ¬ ("2.0" : String) = "9.9")]
    · rw [if_neg h]
      unfold c6f c6g
      rw [if_neg (by decide : ¬ ("1.0" : String) = "9.9")]
  ⟨hyp, c6_version_selection "r" "2.0" c6f c6g 1 "x" hyp⟩

theorem generate_d2_foldl (graph : List (String × List String)) :
    ∀ init : List String,
    graph.foldl
      (fun lines p =>
        if p.2 = [] then lines ++ [quoteName p.1]
        else lines ++ p.2.map (fun dep => edgeLine p.1 dep)) init =
    init ++ graph.flatMap (fun p =>
      if p.2 = [] then [quoteName p.1]
      else p.2.map (fun dep => edgeLine p.1 dep)) := by
  induction graph with
  | nil => intro init; simp
  | cons p rest ih =>
    intro init
    rw [List.foldl_cons, List.flatMap_cons, ih]
    by_cases h : p.2 = []
    · rw [if_pos h, if_pos h, List.append_assoc]
    · rw [if_neg h, if_neg h, List.append_assoc]

/-- Claim C8 (confirmed): the rendered text is exactly the line
`direction: right` followed, per graph entry in stored order, by one quoted
node line for each key with no dependencies and one quoted edge line per
(key, dependency) pair, joined by newlines — and nothing else. -/
theorem c8_renderer :
    ∀ graph : List (String × List String),
    generate_d2 graph = String.intercalate "\n" (d2_spec_lines graph) := by
  intro graph
  unfold generate_d2 d2_spec_lines
  rw [generate_d2_foldl]
  rfl

/-- Counterexample to C4 as stated: on the cycle `a ↔ b` resolved from `a`,
the installation order is `["b", "a"]` — the first-discovered of the two
(the root `a`, discovered first by the BFS and entered first by the DFS)
comes second, not first. -/
theorem c4_counterexample :
    get_installation_order
      (build_dependency_graph "a" "1.0" (cycSrc "a" "b") 5 "z") "a" = ["b", "a"] ∧
    ¬ ((get_installation_order
          (build_dependency_graph "a" "1.0" (cycSrc "a" "b") 5 "z") "a").indexOf "a" <
        (get_installation_order
          (build_dependency_graph "a" "1.0" (cycSrc "a" "b") 5 "z") "a").indexOf "b") := by
  constructor
  · decide
  · decide

/-- DFS on the two-node cycle `{A: [B], B: [A]}` starting at `A`, with any
spare fuel: visits `A`, then `B`, skips the back edge, and emits `[B, A]`. -/
theorem dfs_cycle_pair (A B : String) (hne : A ≠ B) :
    ∀ k : Nat, (dfs [(A, [B]), (B, [A])] (k + 3) A ⟨[], []⟩).installed = [B, A] := by
  intro k
  have hdgA : dictGet [(A, [B]), (B, [A])] A = [B] := by
    simp [dictGet, List.find?]
  have hdgB : dictGet [(A, [B]), (B, [A])] B = [A] := by
    simp [dictGet, List.find?, show (A == B) = false from beq_eq_false_iff_ne.mpr hne]
  have e1 : dfs [(A, [B]), (B, [A])] (k + 1) A ⟨[B, A], []⟩ = ⟨[B, A], []⟩ := by
    rw [dfs, if_pos (by simp : A ∈ (⟨[B, A], []⟩ : DfsSt).visited)]
  have e2 : dfs [(A, [B]), (B, [A])] (k + 2) B ⟨[A], []⟩ = ⟨[B, A], [B]⟩ := by
    rw [show k + 2 = (k + 1) + 1 from rfl, dfs,
      if_neg (by simp [Ne.symm hne] : B ∉ (⟨[A], []⟩ : DfsSt).visited), hdgB]
    show (⟨(dfs [(A, [B]), (B, [A])] (k + 1) A ⟨[B, A], []⟩).visited,
      (dfs [(A, [B]), (B, [A])] (k + 1) A ⟨[B, A], []⟩).installed ++ [B]⟩ : DfsSt) =
      ⟨[B, A], [B]⟩
    rw [e1]
    rfl
  have e3 : dfs [(A, [B]), (B, [A])] (k + 3) A ⟨[], []⟩ = ⟨[B, A], [B, A]⟩ := by
    rw [show k + 3 = (k + 2) + 1 from rfl, dfs,
      if_neg (by simp : A ∉ (⟨[], []⟩ : DfsSt).visited), hdgA]
    show (⟨(dfs [(A, [B]), (B, [A])] (k + 2) B ⟨[A], []⟩).visited,
      (dfs [(A, [B]), (B, [A])] (k + 2) B ⟨[A], []⟩).installed ++ [A]⟩ : DfsSt) =
      ⟨[B, A], [B, A]⟩
    rw [e2]
    rfl
  rw [e3]

/-- Claim C4 (corrected): on a source where `A` depends on `B` and `B`
depends on `A`, with depth budget at least 2 and a filter matching neither
name, `resolve` from `A` terminates with each of `A` and `B` exactly once
as keys (`{A: [B], B: [A]}`), and `sequence` from `A` terminates with each
appearing exactly once — but in post-order `[B, A]`: the first-discovered
of the two, the root `A`, comes last, after the other. -/
theorem c4_cycle (A B v fs : String) (md : Nat) (hne : A ≠ B)
    (hA : containsSubstr A fs = false) (hB : containsSubstr B fs = false)
    (hmd : 2 ≤ md) :
    build_dependency_graph A v (cycSrc A B) md fs = [(A, [B]), (B, [A])] ∧
    get_installation_order [(A, [B]), (B, [A])] A = [B, A] := by
  have hgA : rawDeps (cycSrc A B) A v A = [B] := by
    unfold rawDeps cycSrc
    rw [if_pos rfl]
    rfl
  have hgB : rawDeps (cycSrc A B) A v B = [A] := by
    unfold rawDeps cycSrc
    rw [if_neg (Ne.symm hne), if_pos rfl]
    rfl
  have hfB : [B].filter (fun d => !(containsSubstr d fs)) = [B] := by
    simp [List.filter, hB]
  have hfA : [A].filter (fun d => !(containsSubstr d fs)) = [A] := by
    simp [List.filter, hA]
  have hdeps1 : ((cycSrc A B) A v).getD [] = [B] := by
    unfold cycSrc
    rw [if_pos rfl]
    rfl
  have hdeps2 : ((cycSrc A B) B (if B = A then v else "1.0")).getD [] = [A] := hgB
  have hs1 : bfs_step (cycSrc A B) A v md fs ⟨[], [A], [(A, 0)]⟩ =
      ⟨[(A, [B])], [B, A], [(B, 1)]⟩ := by
    simp only [bfs_step, if_true]
    rw [if_neg (by omega : ¬ md ≤ 0)]
    rw [hdeps1, hfB]
    simp [dictSet, enqueue_deps, Ne.symm hne]
  have hs2 : bfs_step (cycSrc A B) A v md fs ⟨[(A, [B])], [B, A], [(B, 1)]⟩ =
      ⟨[(A, [B]), (B, [A])], [B, A], []⟩ := by
    simp only [bfs_step]
    rw [if_neg (by omega : ¬ md ≤ 1)]
    rw [hdeps2, hfA]
    simp [dictSet, enqueue_deps, show (A == B) = false from beq_eq_false_iff_ne.mpr hne]
  have hs3 : runSteps (cycSrc A B) A v md fs 3 ⟨[], [A], [(A, 0)]⟩ =
      ⟨[(A, [B]), (B, [A])], [B, A], []⟩ := by
    rw [show (3 : Nat) = 2 + 1 from rfl, runSteps, hs1,
      show (2 : Nat) = 1 + 1 from rfl, runSteps, hs2,
      show (1 : Nat) = 0 + 1 from rfl, runSteps,
      bfs_step_of_empty (cycSrc A B) A v md fs _ rfl]
    rfl
  obtain ⟨k, rfl⟩ : ∃ k, md = k + 2 := ⟨md - 2, by omega⟩
  have h3N : 3 ≤ queueWeight (rawDeps (cycSrc A B) A v) (k + 2) [(A, 0)] := by
    have hw3 : 3 ≤ weight (rawDeps (cycSrc A B) A v) (k + 2) A := by
      rw [show k + 2 = (k + 1) + 1 from rfl, weight, hgA]
      rw [show k + 1 = k + 1 from rfl]
      simp only [List.map_cons, List.map_nil, List.sum_cons, List.sum_nil]
      rw [weight, hgB]
      simp only [List.map_cons, List.map_nil, List.sum_cons, List.sum_nil]
      have := weight_pos (rawDeps (cycSrc A B) A v) k A
      omega
    simp only [queueWeight, List.map_cons, List.map_nil, List.sum_cons, List.sum_nil,
      Nat.sub_zero]
    omega
  constructor
  · show (runSteps (cycSrc A B) A v (k + 2) fs
      (queueWeight (rawDeps (cycSrc A B) A v) (k + 2) [(A, 0)])
      ⟨[], [A], [(A, 0)]⟩).graph = [(A, [B]), (B, [A])]
    rw [runSteps_stable (cycSrc A B) A v (k + 2) fs 3 _ _ (by rw [hs3]) h3N, hs3]
  · exact dfs_cycle_pair A B hne 3

/-- Witness for C4 (amended) at concrete names `a`, `b`. -/
theorem c4_cycle_witness :
    ("a" : String) ≠ "b" ∧ containsSubstr "a" "z" = false ∧
    containsSubstr "b" "z" = false ∧ (2 : Nat) ≤ 5 ∧
    (build_dependency_graph "a" "1.0" (cycSrc "a" "b") 5 "z" =
      [("a", ["b"]), ("b", ["a"])] ∧
     get_installation_order [("a", ["b"]), ("b", ["a"])] "a" = ["b", "a"]) :=
  ⟨by decide, by decide, by decide, by decide,
   c4_cycle "a" "b" "1.0" "z" 5 (by decide) (by decide) (by decide) (by decide)⟩

/-- Claim C5 (confirmed): for every graph and start, and every edge
`(a → b)` of the graph with `b` also a key, if both ends appear in the
installation order then `b` is placed strictly before `a` — unless the edge
closes a cycle, witnessed by a chain of graph edges leading from `b` back
to `a` (the back-edge case). -/
theorem c5_ordering_law (graph : List (String × List String)) (start a b : String)
    (hedge : stepRel graph a b) (_hkey : b ∈ graph.map Prod.fst)
    (ha : a ∈ get_installation_order graph start)
    (_hb : b ∈ get_installation_order graph start) :
    (get_installation_order graph start).indexOf b <
      (get_installation_order graph start).indexOf a ∨
    Relation.TransGen (stepRel graph) b a := by
  have hmain := dfs_main graph (start :: allNames graph)
    (fun x d hd => List.mem_cons_of_mem _ (stepRel_mem_allNames graph x d hd))
    ((start :: allNames graph).length + 1) start ⟨[], []⟩
    (List.mem_cons_self _ _)
    (by
      have hcard : unvisitedCount (start :: allNames graph) ⟨[], []⟩ ≤
          (start :: allNames graph).length := by
        unfold unvisitedCount
        simp only [List.toFinset_nil, Finset.sdiff_empty]
        exact List.toFinset_card_le _
      omega)
    ⟨List.nodup_nil, fun x hx => absurd hx (List.not_mem_nil x)⟩
    (fun x y _ hx => absurd hx (List.not_mem_nil x))
    (fun g hg => absurd hg.1 (List.not_mem_nil g))
  obtain ⟨hwf, hinv, -⟩ := hmain
  rcases hinv a b hedge ha with hbef | htg
  · exact Or.inl (before_indexOf hwf.1 hbef)
  · exact Or.inr htg

/-- Witness for C5 on the concrete graph `{a: [b], b: []}` from `a`: the
edge `a → b` respects the ordering law. -/
theorem c5_ordering_law_witness :
    stepRel [("a", ["b"]), ("b", [])] "a" "b" ∧
    "b" ∈ ([("a", ["b"]), ("b", [])] : List (String × List String)).map Prod.fst ∧
    "a" ∈ get_installation_order [("a", ["b"]), ("b", [])] "a" ∧
    "b" ∈ get_installation_order [("a", ["b"]), ("b", [])] "a" ∧
    ((get_installation_order [("a", ["b"]), ("b", [])] "a").indexOf "b" <
      (get_installation_order [("a", ["b"]), ("b", [])] "a").indexOf "a" ∨
     Relation.TransGen (stepRel [("a", ["b"]), ("b", [])]) "b" "a") :=
  ⟨by unfold stepRel; decide, by decide, by decide, by decide,
   c5_ordering_law [("a", ["b"]), ("b", [])] "a" "a" "b"
     (by unfold stepRel; decide) (by decide) (by decide) (by decide)⟩

/-- Claim C7 (confirmed): NOT_FOUND is treated as zero dependencies — any
graphed node whose lookup answered NOT_FOUND is stored with an empty list,
and when the source answers NOT_FOUND for the root itself (with a positive
depth budget, so the root is expanded at all), the graph is exactly
`{root: []}` and the installation order is `[root]`; no error is raised,
the resolver being a total function. -/
theorem c7_not_found :
    ∀ (sp sv : String) (f : String → String → Option (List String)) (md : Nat)
      (fs : String),
    (∀ k l, (k, l) ∈ build_dependency_graph sp sv f md fs →
      f k (if k = sp then sv else "1.0") = none → l = []) ∧
    (1 ≤ md → f sp sv = none →
      build_dependency_graph sp sv f md fs = [(sp, [])] ∧
      get_installation_order [(sp, [])] sp = [sp]) := by
  intro sp sv f md fs
  constructor
  · intro k l hmem hnone
    have hval := graph_values sp sv f md fs k l hmem
    rw [hval]
    unfold filteredDeps rawDeps
    rw [hnone]
    rfl
  · intro hmd hnone
    obtain ⟨m, rfl⟩ : ∃ m, md = m + 1 := ⟨md - 1, by omega⟩
    have hraw : rawDeps f sp sv sp = [] := by
      unfold rawDeps
      rw [if_pos rfl, hnone]
      rfl
    constructor
    · show (runSteps f sp sv (m + 1) fs
        (queueWeight (rawDeps f sp sv) (m + 1) [(sp, 0)]) ⟨[], [sp], [(sp, 0)]⟩).graph =
        [(sp, [])]
      have hN : queueWeight (rawDeps f sp sv) (m + 1) [(sp, 0)] = 0 + 1 := by
        simp [queueWeight, weight, hraw]
      rw [hN, runSteps, runSteps]
      show (bfs_step f sp sv (m + 1) fs ⟨[], [sp], [(sp, 0)]⟩).graph = [(sp, [])]
      simp only [bfs_step]
      rw [if_neg (by omega : ¬ m + 1 ≤ 0)]
      simp [if_pos rfl, hnone, dictSet, enqueue_deps]
    · show (dfs [(sp, [])] ((sp :: allNames [(sp, [])]).length + 1) sp
        ⟨[], []⟩).installed = [sp]
      rw [dfs, if_neg (by simp : sp ∉ (⟨[], []⟩ : DfsSt).visited)]
      have hdg : dictGet [(sp, [])] sp = [] := by
        simp [dictGet, List.find?]
      rw [hdg]
      rfl

/-- Witness for C7: the all-NOT_FOUND source at depth 1. -/
theorem c7_not_found_witness :
    (1 : Nat) ≤ 1 ∧ srcNone "r" "v" = none ∧
    (build_dependency_graph "r" "v" srcNone 1 "x" = [("r", [])] ∧
     get_installation_order [("r", [])] "r" = ["r"]) :=
  ⟨by decide, rfl, (c7_not_found "r" "v" srcNone 1 "x").2 (by decide) rfl⟩

/-- Claim C9 (confirmed): the BFS terminates.  The step relation reaches a
state with an empty queue after at most `queueWeight` iterations (the
measure shrinks at every step because the visited set admits each name only
once into the queue and `maxDepth` bounds the expansion depth), the
resolver's graph is the graph of that final state, and iterating further
changes nothing.  Sources are functions into lists, so every lookup result
is finite by construction. -/
theorem c9_termination :
    ∀ (sp sv : String) (f : String → String → Option (List String)) (md : Nat)
      (fs : String),
    ∃ n, (runSteps f sp sv md fs n ⟨[], [sp], [(sp, 0)]⟩).queue = [] ∧
      build_dependency_graph sp sv f md fs =
        (runSteps f sp sv md fs n ⟨[], [sp], [(sp, 0)]⟩).graph ∧
      ∀ m, n ≤ m → runSteps f sp sv md fs m ⟨[], [sp], [(sp, 0)]⟩ =
        runSteps f sp sv md fs n ⟨[], [sp], [(sp, 0)]⟩ := by
  intro sp sv f md fs
  refine ⟨queueWeight (rawDeps f sp sv) md [(sp, 0)], ?_, rfl, ?_⟩
  · exact runSteps_empties f sp sv md fs _ _ (le_refl _)
  · intro m hm
    exact runSteps_stable f sp sv md fs _ m _
      (runSteps_empties f sp sv md fs _ _ (le_refl _)) hm

/-- Claim C10 (confirmed): the installation order is never empty, contains
the start name exactly once, and ends with the start name. -/
theorem c10_start_emitted_last :
    ∀ (graph : List (String × List String)) (start : String),
    get_installation_order graph start ≠ [] ∧
    (get_installation_order graph start).count start = 1 ∧
    (get_installation_order graph start).getLast? = some start := by
  intro graph start
  obtain ⟨e, he, hs⟩ := dfs_top_shape graph (start :: allNames graph).length start
  have hout : get_installation_order graph start = e ++ [start] := he
  rw [hout]
  refine ⟨by simp, ?_, by rw [List.getLast?_concat]⟩
  rw [List.count_append]
  rw [List.count_eq_zero.2 hs]
  simp

end Pr2

